import Mathlib

/-!
Shallow embedding of `src/tui.rs` of kronark-node-viewer.

The embedding keeps the source's names where possible:
`init_layout`, `from_node`, `run`, `enter_node_view`, `NodeDefRenderer`,
`OverdrawBuffer`.  Rust's `HashMap` is modelled by an association list
(`assocGet`/`assocInsert`: insert overwrites the value of an existing key in
place, like `HashMap::insert`); `Vec` used as a stack (`push`/`pop`) is
modelled by a `List` with cons as push and head as pop; the unbounded
`while to_process.len() > 0` loop is modelled with explicit fuel, `none`
meaning the loop is still running after that many iterations; the `panic!`
and `.unwrap()` failure paths are modelled by explicit outcome constructors.
-/

deriving instance DecidableEq for Except

namespace NodeViewer

/-- Socket payload of `kronark_node_parser::socket::DataType`: either a
connection `(connection_id, socket_index)` to another instance, or any of the
other (non-connection) data variants, which `init_layout` ignores; collapsed
here into one constructor. -/
inductive DataType where
  | connection (cid : Nat) (port : Nat)
  | otherData
deriving DecidableEq

/-- A socket: the code only inspects `socket.data`. -/
structure Socket where
  data : Option DataType
deriving DecidableEq

/-- An instance: integer key plus ordered socket list. -/
structure Instance where
  key : Nat
  sockets : List Socket
deriving DecidableEq

/-- `Roots`: graph-level input/output boundary connection lists, pairs of
`(instance_id, socket_index)`; id 255 is the "no connection" sentinel. -/
structure Roots where
  input_connections : List (Nat × Nat)
  output_connections : List (Nat × Nat)
deriving DecidableEq

/-- Payload of the `Node::V1` variant: roots, node table, type table
(entries abstracted as numbers, they never influence layout) and the
instance list. -/
structure NodeGraphV1 where
  roots : Roots
  nodes : List Nat
  types : List Nat
  instances : List Instance
deriving DecidableEq

/-- The versioned graph value.  The source matches `Node::V1` and has a
wildcard arm `_ => panic!("unsupported version")` (kept compilable by
`#[allow(unreachable_patterns)]`); the wildcard is modelled by an explicit
variant standing for any non-V1 version. -/
inductive Node where
  | V1 (g : NodeGraphV1)
  | unsupportedVersion
deriving DecidableEq

/-- `HashMap::get`, on the association-list model: first entry with the key. -/
def assocGet {α : Type} (k : Nat) : List (Nat × α) → Option α
  | [] => none
  | (k', v) :: rest => if k' = k then some v else assocGet k rest

/-- `HashMap::insert`: overwrite the value of an existing key in place,
otherwise append the new entry. -/
def assocInsert {α : Type} (k : Nat) (v : α) : List (Nat × α) → List (Nat × α)
  | [] => [(k, v)]
  | (k', v') :: rest => if k' = k then (k, v) :: rest else (k', v') :: assocInsert k v rest

/-- The mutable state of `init_layout`'s traversal: the `depths` map, the
`to_process` stack (head = top of the Rust `Vec`), and `max_depth`. -/
structure LayoutState where
  depths : List (Nat × Nat)
  to_process : List Nat
  max_depth : Nat
deriving DecidableEq

/-- One step of the seeding loop over `roots.output_connections`:
skip the 255 sentinel, otherwise `depths.insert(id, 0)` and push. -/
def seedStep (st : LayoutState) (conn : Nat × Nat) : LayoutState :=
  if conn.1 = 255 then st
  else ⟨assocInsert conn.1 0 st.depths, conn.1 :: st.to_process, st.max_depth⟩

/-- The seeding loop of `init_layout` (lines 167-175 of `tui.rs`). -/
def seedState (outs : List (Nat × Nat)) : LayoutState :=
  outs.foldl seedStep ⟨[], [], 0⟩

/-- The inner `for socket in instance.sockets` loop: for every socket whose
data is a connection with id other than 255, `depths.insert(cid, d + 1)` and
push `cid`; returns the updated map and stack. -/
def processSockets (d : Nat) : List Socket → List (Nat × Nat) → List Nat → List (Nat × Nat) × List Nat
  | [], m, s => (m, s)
  | sock :: rest, m, s =>
    match sock.data with
    | some (DataType.connection cid _) =>
      if cid = 255 then processSockets d rest m s
      else processSockets d rest (assocInsert cid (d + 1) m) (cid :: s)
    | _ => processSockets d rest m s

/-- The connection ids that `processSockets` inserts for a socket list:
every non-255 connection id, in socket order. -/
def socketTargets : List Socket → List Nat
  | [] => []
  | sock :: rest =>
    match sock.data with
    | some (DataType.connection cid _) =>
      if cid = 255 then socketTargets rest else cid :: socketTargets rest
    | _ => socketTargets rest

/-- State after one full iteration of the `while` loop body, given the popped
instance `inst` whose recorded depth was `d`, the map `m`, the remaining
stack `rest` and the previous `max_depth` `md`. -/
def stepNext (inst : Instance) (d : Nat) (m : List (Nat × Nat)) (rest : List Nat) (md : Nat) : LayoutState :=
  ⟨(processSockets d inst.sockets m rest).1, (processSockets d inst.sockets m rest).2, max md d⟩

/-- Result of inspecting the loop at the top of an iteration. -/
inductive StepRes where
  | done
  | panic
  | next (st : LayoutState)
deriving DecidableEq

/-- One iteration of the `while to_process.len() > 0` loop: pop an id,
`depths.get(..).unwrap()` (panic if absent), `instance_table.get(..).unwrap()`
(panic if absent), update `max_depth`, and process the instance's sockets. -/
def loopStep (table : List (Nat × Instance)) (st : LayoutState) : StepRes :=
  match st.to_process with
  | [] => StepRes.done
  | id :: rest =>
    match assocGet id st.depths with
    | none => StepRes.panic
    | some d =>
      match assocGet id table with
      | none => StepRes.panic
      | some inst => StepRes.next (stepNext inst d st.depths rest st.max_depth)

/-- Outcome of the worklist loop: finished with a final state (empty
`to_process`), or panicked on a failed `.unwrap()`. -/
inductive LoopOutcome where
  | finished (st : LayoutState)
  | panicked
deriving DecidableEq

/-- The worklist loop of `init_layout` (lines 177-193), with fuel: `none`
means the loop is still running after `fuel` iterations (the Rust loop is
unbounded and would simply continue). -/
def runLoop (table : List (Nat × Instance)) : Nat → LayoutState → Option LoopOutcome
  | 0, _ => none
  | fuel + 1, st =>
    match loopStep table st with
    | StepRes.done => some (LoopOutcome.finished st)
    | StepRes.panic => some LoopOutcome.panicked
    | StepRes.next st' => runLoop table fuel st'

/-- Seeding followed by the worklist loop. -/
def initLayoutRun (outs : List (Nat × Nat)) (table : List (Nat × Instance)) (fuel : Nat) : Option LoopOutcome :=
  runLoop table fuel (seedState outs)

/-- `columns[d].instances.push(k)`: `none` models the index-out-of-bounds
panic when `d` is not below the number of columns. -/
def pushAt (cols : List (List Nat)) (d : Nat) (k : Nat) : Option (List (List Nat)) :=
  match cols, d with
  | [], _ => none
  | c :: rest, 0 => some ((c ++ [k]) :: rest)
  | c :: rest, d + 1 =>
    match pushAt rest d k with
    | none => none
    | some rest' => some (c :: rest')

/-- The `for (instance_id, depth) in depths` reorganization loop. -/
def buildColumnsAux (cols : List (List Nat)) : List (Nat × Nat) → Option (List (List Nat))
  | [] => some cols
  | (k, d) :: rest =>
    match pushAt cols d k with
    | none => none
    | some cols' => buildColumnsAux cols' rest

/-- Reorganize the final depth map into `max_depth + 1` columns
(lines 195-203 of `tui.rs`). -/
def buildColumns (m : List (Nat × Nat)) (md : Nat) : Option (List (List Nat)) :=
  buildColumnsAux (List.replicate (md + 1) []) m

/-- Result of the whole of `init_layout`: the column layout and `max_depth`,
or a panic (failed unwrap or out-of-bounds column index). -/
inductive LayoutResult where
  | ok (cols : List (List Nat)) (max_depth : Nat)
  | panicked
deriving DecidableEq

/-- The whole of `init_layout`, with fuel for the worklist loop. -/
def init_layout (outs : List (Nat × Nat)) (table : List (Nat × Instance)) (fuel : Nat) : Option LayoutResult :=
  match initLayoutRun outs table fuel with
  | none => none
  | some LoopOutcome.panicked => some LayoutResult.panicked
  | some (LoopOutcome.finished st) =>
    match buildColumns st.depths st.max_depth with
    | none => some LayoutResult.panicked
    | some cols => some (LayoutResult.ok cols st.max_depth)

/-- The `NodeDefRenderer` struct: graph data, the computed column layout and
the two scroll offsets. -/
structure NodeDefRenderer where
  roots : Roots
  instance_table : List (Nat × Instance)
  node_table : List Nat
  type_table : List Nat
  instance_layout : List (List Nat)
  x_shift : Int
  y_shift : Int
deriving DecidableEq

/-- The `for instance in node_def.instances { instance_table.insert(...) }`
loop of `from_node`. -/
def buildTable (insts : List Instance) : List (Nat × Instance) :=
  insts.foldl (fun t i => assocInsert i.key i t) []

/-- `NodeDefRenderer::from_node`: match on the version, build the instance
table, run `init_layout`.  `none` models `init_layout` still looping,
`some (Except.error _)` models a panic (the explicit
`panic!("unsupported version")` on a non-V1 value, or a panic inside
`init_layout`), `some (Except.ok _)` the constructed renderer with both
shifts 0. -/
def from_node (fuel : Nat) : Node → Option (Except String NodeDefRenderer)
  | Node.V1 g =>
    match init_layout g.roots.output_connections (buildTable g.instances) fuel with
    | none => none
    | some LayoutResult.panicked => some (Except.error "layout panic")
    | some (LayoutResult.ok cols _) =>
      some (Except.ok ⟨g.roots, buildTable g.instances, g.nodes, g.types, cols, 0, 0⟩)
  | Node.unsupportedVersion => some (Except.error "unsupported version")

/-- `crossterm::event::KeyCode`, restricted to what the claims mention. -/
inductive KeyCode where
  | char (c : Char)
  | left
  | right
  | up
  | down
  | otherKey
deriving DecidableEq

/-- `crossterm::event::KeyEventKind`. -/
inductive KeyEventKind where
  | press
  | release
  | repeated
deriving DecidableEq

/-- `crossterm::event::KeyEvent`, restricted to the fields the code reads. -/
structure KeyEvent where
  kind : KeyEventKind
  code : KeyCode
deriving DecidableEq

/-- `crossterm::event::Event`: a key event or any non-key event (the code
only destructures `Event::Key`). -/
inductive Event where
  | key (ke : KeyEvent)
  | nonKey
deriving DecidableEq

/-- What one iteration of the render loop observes: the `terminal.draw` call
fails with an I/O error, or the draw succeeds and `event::read()` fails, or
both succeed and an event is delivered. -/
inductive Frame where
  | drawErr (e : Nat)
  | readErr (e : Nat)
  | event (ev : Event)
deriving DecidableEq

/-- Externally visible actions of a session, for ordering statements:
taking over the terminal, completing one draw, restoring the terminal. -/
inductive Action where
  | initTerm
  | draw
  | restoreTerm
deriving DecidableEq

/-- The only key combination the loop acts on: a *press* of `'q'`. -/
def isQuitKey (ke : KeyEvent) : Bool :=
  ke.kind == KeyEventKind.press && ke.code == KeyCode.char 'q'

/-- The `run` function (lines 280-295): per iteration draw once, then read
one event; propagate I/O errors with `?`; a press of `'q'` breaks the loop
with `Ok(())`; every other event (non-press kinds, other keys, non-key
events) falls through to the next iteration.  Returns the emitted draw
actions, the result (`none` when the scripted frames run out while the loop
is still going), and the renderer, which the loop owns but never mutates. -/
def run (r : NodeDefRenderer) : List Frame → List Action × Option (Except Nat Unit) × NodeDefRenderer
  | [] => ([], none, r)
  | Frame.drawErr e :: _ => ([], some (Except.error e), r)
  | Frame.readErr e :: _ => ([Action.draw], some (Except.error e), r)
  | Frame.event ev :: rest =>
    match ev with
    | Event.key ke =>
      if isQuitKey ke then ([Action.draw], some (Except.ok ()), r)
      else
        let p := run r rest
        (Action.draw :: p.1, p.2)
    | Event.nonKey =>
      let p := run r rest
      (Action.draw :: p.1, p.2)

/-- Overall outcome of `enter_node_view`: a panic before the terminal is
touched, `from_node` never returning, the session still in progress when the
scripted frames run out, or a normal return with the propagated result. -/
inductive EnvOutcome where
  | panic (msg : String)
  | hang
  | running
  | ret (r : Except Nat Unit)
deriving DecidableEq

/-- `enter_node_view` (lines 299-305): build the renderer first, then
`ratatui::init()`, then `run`, then `ratatui::restore()`, then return the
result.  The action trace records the externally visible order: a panic in
`from_node` happens before `initTerm` and before any `draw`; `restoreTerm`
is appended after `run` returns, on the `Ok` and on the `Err` path alike. -/
def enter_node_view (fuel : Nat) (node : Node) (frames : List Frame) : List Action × EnvOutcome :=
  match from_node fuel node with
  | none => ([], EnvOutcome.hang)
  | some (Except.error m) => ([], EnvOutcome.panic m)
  | some (Except.ok r) =>
    let p := run r frames
    match p.2.1 with
    | none => (Action.initTerm :: p.1, EnvOutcome.running)
    | some res => (Action.initTerm :: p.1 ++ [Action.restoreTerm], EnvOutcome.ret res)

/-- A rectangle with integer top-left corner and natural dimensions. -/
structure IntRect where
  x : Int
  y : Int
  w : Nat
  h : Nat
deriving DecidableEq

/-- Modelled from the spec: `OverdrawBuffer` is declared in `src/tui.rs` as
`struct OverdrawBuffer {}` with no fields and no methods — the clipping
behaviour is missing from the source, so it is modelled from spec section 4.4:
a fixed-width/height cell grid (cells indexed by integer coordinates, the
grid being `[0,width) x [0,height)`). -/
structure OverdrawBuffer where
  width : Nat
  height : Nat
  cells : Int → Int → Nat

/-- Membership of a point in a rectangle. -/
def inRect (r : IntRect) (p : Int × Int) : Prop :=
  r.x ≤ p.1 ∧ p.1 < r.x + r.w ∧ r.y ≤ p.2 ∧ p.2 < r.y + r.h

/-- Modelled from the spec: translation of a draw request by the active
scroll offset. -/
def translateRect (r : IntRect) (sx sy : Int) : IntRect :=
  ⟨r.x + sx, r.y + sy, r.w, r.h⟩

/-- Modelled from the spec: intersection of a rectangle with the grid's
bounding rectangle `[0,w) x [0,h)`. -/
def clipRect (r : IntRect) (w h : Nat) : IntRect :=
  ⟨max r.x 0, max r.y 0,
   (min (r.x + r.w) w - max r.x 0).toNat,
   (min (r.y + r.h) h - max r.y 0).toNat⟩

/-- The list of coordinates of a rectangle, row-major. -/
def rectCoords (r : IntRect) : List (Int × Int) :=
  (List.range r.w).flatMap fun i => (List.range r.h).map fun (j : Nat) => (r.x + i, r.y + j)

/-- Modelled from the spec: the cells a rectangle-fill request actually
writes — the request translated by the scroll offset, then clipped to the
grid, *before any cell is touched*. -/
def writtenCoords (buf : OverdrawBuffer) (r : IntRect) (sx sy : Int) : List (Int × Int) :=
  rectCoords (clipRect (translateRect r sx sy) buf.width buf.height)

/-- A single unguarded cell write. -/
def writeCell (v : Nat) (c : Int → Int → Nat) (p : Int × Int) : Int → Int → Nat :=
  fun a b => if a = p.1 ∧ b = p.2 then v else c a b

/-- Modelled from the spec: a rectangle-fill draw request through the
`OverdrawBuffer` — write the fill value at exactly the translated-then-
clipped coordinates. -/
def drawRect (buf : OverdrawBuffer) (r : IntRect) (sx sy : Int) (v : Nat) : OverdrawBuffer :=
  ⟨buf.width, buf.height, (writtenCoords buf r sx sy).foldl (writeCell v) buf.cells⟩

/-- The translated rectangle lies fully outside the grid. -/
def outsideGrid (r : IntRect) (w h : Nat) : Prop :=
  (w : Int) ≤ r.x ∨ r.x + r.w ≤ 0 ∨ (h : Int) ≤ r.y ∨ r.y + r.h ≤ 0

/-- Keys of an association list are pairwise distinct. -/
def NodupKeys {α : Type} (m : List (Nat × α)) : Prop :=
  (m.map Prod.fst).Nodup

/-- Written from the claim's words (not from the code): each proposal
`depth(current) + 1` made along an input-socket connection is a lower bound
on the recorded depth of the connection's target, read off on the final
depth map.  `init_layout` is claimed to record the maximum proposal, which
implies this bound. -/
def depthRespectsProposals (table : List (Nat × Instance)) (m : List (Nat × Nat)) : Bool :=
  table.all fun e =>
    (socketTargets e.2.sockets).all fun cid =>
      match assocGet e.1 m, assocGet cid m with
      | some di, some dc => decide (di + 1 ≤ dc)
      | _, _ => true

/-- An instance has a connected input socket: some socket carries a
connection whose id is not the 255 sentinel. -/
def hasConnectedInput (inst : Instance) : Bool :=
  !(socketTargets inst.sockets).isEmpty

/-- No instance of the table has an input-socket connection to `k`. -/
def noConnectionTo (table : List (Nat × Instance)) (k : Nat) : Prop :=
  ∀ e ∈ table, k ∉ socketTargets e.2.sockets

/-- Total number of occurrences of `k` across all columns. -/
def countInCols (cols : List (List Nat)) (k : Nat) : Nat :=
  (cols.map fun c => c.count k).sum

/-- A frame that neither quits nor fails: an event that is not a press of
`'q'`. -/
def benign : Frame → Bool
  | Frame.event (Event.key ke) => !(isQuitKey ke)
  | Frame.event Event.nonKey => true
  | _ => false

/-- Diamond graph for the depth-maximum claim: the output boundary connects
to instances 1 and 2; instance 2's input comes from 3, instance 3's input
from 4, and instance 1's input also from 4.  So 4 is reachable from the
output boundary through a path of length 1 (via 1) and one of length 3
(via 2 and 3). -/
def diamondTable : List (Nat × Instance) :=
  [(1, ⟨1, [⟨some (DataType.connection 4 0)⟩]⟩),
   (2, ⟨2, [⟨some (DataType.connection 3 0)⟩]⟩),
   (3, ⟨3, [⟨some (DataType.connection 4 0)⟩]⟩),
   (4, ⟨4, []⟩)]

/-- Output-boundary connections of the diamond graph. -/
def diamondOuts : List (Nat × Nat) := [(1, 0), (2, 0)]

/-- Two-instance chain: output boundary connects to 1, whose input comes
from 2; instance 2 has no sockets at all. -/
def chainTable : List (Nat × Instance) :=
  [(1, ⟨1, [⟨some (DataType.connection 2 0)⟩]⟩), (2, ⟨2, []⟩)]

/-- Output-boundary connections of the chain graph. -/
def chainOuts : List (Nat × Nat) := [(1, 0)]

/-- Self-loop graph: instance 1 is connected to the output boundary and its
single input socket is connected to instance 1 itself. -/
def selfLoopTable : List (Nat × Instance) :=
  [(1, ⟨1, [⟨some (DataType.connection 1 0)⟩]⟩)]

/-- Output-boundary connections of the self-loop graph. -/
def selfLoopOuts : List (Nat × Nat) := [(1, 0)]

/-- Graph with an unreachable instance: instance 1 is connected to the
output boundary; instance 7 sits in the instance table but nothing reaches
it. -/
def strayTable : List (Nat × Instance) := [(1, ⟨1, []⟩), (7, ⟨7, []⟩)]

/-- Output-boundary connections of the stray-instance graph. -/
def strayOuts : List (Nat × Nat) := [(1, 0)]

/-- The chain graph packaged as a V1 node value. -/
def chainGraph : NodeGraphV1 :=
  ⟨⟨[], chainOuts⟩, [], [], [⟨1, [⟨some (DataType.connection 2 0)⟩]⟩, ⟨2, []⟩]⟩

/-- Renderer that `from_node` produces for `chainGraph`: two columns, both
scroll offsets 0. -/
def chainRenderer : NodeDefRenderer :=
  ⟨⟨[], chainOuts⟩, buildTable chainGraph.instances, [], [], [[1], [2]], 0, 0⟩

/-- A graph with no instances and no boundary connections. -/
def emptyGraph : NodeGraphV1 := ⟨⟨[], []⟩, [], [], []⟩

/-- Renderer that `from_node` produces for `emptyGraph`. -/
def emptyRenderer : NodeDefRenderer := ⟨⟨[], []⟩, [], [], [], [[]], 0, 0⟩

/-- The worklist loop of `init_layout`, run on the self-loop graph, is
still running after `n` iterations for every `n`: the traversal diverges on
this input instead of detecting the cycle and failing. -/
def selfLoopRunsForever : Prop :=
  ∀ n : Nat, initLayoutRun selfLoopOuts selfLoopTable n = none

/-- A 4 x 3 buffer whose cells all hold 0. -/
def bufEx : OverdrawBuffer := ⟨4, 3, fun _ _ => 0⟩

/-- A rectangle far outside `bufEx`. -/
def rectFarOut : IntRect := ⟨10, 10, 2, 2⟩

/-- Insert all keys of `cs` at depth `d + 1`, in order (the effect of
`processSockets` on the depth map). -/
def insertAll (d : Nat) (cs : List Nat) (m : List (Nat × Nat)) : List (Nat × Nat) :=
  cs.foldl (fun m' c => assocInsert c (d + 1) m') m

/-- Invariant carried through the worklist loop: keys are distinct, every
recorded depth is bounded by `max_depth` unless its instance is still
pending, and the 255 sentinel appears neither in the map nor in the
stack. -/
def LoopInv (st : LayoutState) : Prop :=
  NodupKeys st.depths
  ∧ (∀ p ∈ st.depths, p.2 ≤ st.max_depth ∨ p.1 ∈ st.to_process)
  ∧ (∀ v, (255, v) ∉ st.depths)
  ∧ 255 ∉ st.to_process

/-! ### Association-list lemmas -/

theorem assocGet_insert_self {α : Type} (k : Nat) (v : α) (m : List (Nat × α)) :
    assocGet k (assocInsert k v m) = some v := by
  induction m with
  | nil => simp [assocGet, assocInsert]
  | cons e rest ih =>
    obtain ⟨k', v'⟩ := e
    by_cases h : k' = k
    · simp [assocInsert, assocGet, h]
    · simp [assocInsert, assocGet, h, ih]

theorem assocGet_insert_of_ne {α : Type} {q k : Nat} (v : α) (m : List (Nat × α))
    (hne : q ≠ k) : assocGet q (assocInsert k v m) = assocGet q m := by
  have hkq : k ≠ q := Ne.symm hne
  induction m with
  | nil => simp [assocGet, assocInsert, hkq]
  | cons e rest ih =>
    obtain ⟨k', v'⟩ := e
    by_cases h : k' = k
    · subst h
      simp [assocInsert, assocGet, hkq]
    · simp only [assocInsert, if_neg h, assocGet]
      rw [ih]

theorem mem_of_assocGet {α : Type} {k : Nat} {v : α} {m : List (Nat × α)}
    (h : assocGet k m = some v) : (k, v) ∈ m := by
  induction m with
  | nil => simp [assocGet] at h
  | cons e rest ih =>
    obtain ⟨k', v'⟩ := e
    by_cases hk : k' = k
    · subst hk
      simp [assocGet] at h
      simp [h]
    · simp only [assocGet, if_neg hk] at h
      exact List.mem_cons_of_mem _ (ih h)

theorem assocGet_none_iff {α : Type} (k : Nat) (m : List (Nat × α)) :
    assocGet k m = none ↔ ∀ v, (k, v) ∉ m := by
  induction m with
  | nil => simp [assocGet]
  | cons e rest ih =>
    obtain ⟨k', v'⟩ := e
    by_cases hk : k' = k
    · subst hk
      constructor
      · intro h
        simp [assocGet] at h
      · intro h
        exact absurd (List.mem_cons_self _ _) (h v')
    · simp only [assocGet, if_neg hk, ih, List.mem_cons]
      constructor
      · intro h v hv
        rcases hv with hv | hv
        · have : k = k' := congrArg Prod.fst hv
          exact hk this.symm
        · exact h v hv
      · intro h v hv
        exact h v (Or.inr hv)

theorem assocGet_ne_none_iff {α : Type} (k : Nat) (m : List (Nat × α)) :
    assocGet k m ≠ none ↔ k ∈ m.map Prod.fst := by
  constructor
  · intro h
    cases hg : assocGet k m with
    | none => exact absurd hg h
    | some v => exact List.mem_map.mpr ⟨(k, v), mem_of_assocGet hg, rfl⟩
  · intro h hnone
    obtain ⟨p, hp, hfst⟩ := List.mem_map.mp h
    obtain ⟨pk, pv⟩ := p
    simp at hfst
    subst hfst
    exact ((assocGet_none_iff pk m).mp hnone) pv hp

theorem mem_assocInsert {α : Type} {k : Nat} {v : α} {p : Nat × α} {m : List (Nat × α)}
    (h : p ∈ assocInsert k v m) : p ∈ m ∨ p = (k, v) := by
  induction m with
  | nil => simpa [assocInsert] using h
  | cons e rest ih =>
    obtain ⟨k', v'⟩ := e
    by_cases hk : k' = k
    · subst hk
      rw [show assocInsert k' v ((k', v') :: rest) = (k', v) :: rest from by
        simp [assocInsert]] at h
      rcases List.mem_cons.mp h with h | h
      · exact Or.inr h
      · exact Or.inl (List.mem_cons_of_mem _ h)
    · simp only [assocInsert, if_neg hk, List.mem_cons] at h
      rcases h with h | h
      · exact Or.inl (by simp [h])
      · rcases ih h with h' | h'
        · exact Or.inl (List.mem_cons_of_mem _ h')
        · exact Or.inr h'

theorem keys_assocInsert {α : Type} (k : Nat) (v : α) (m : List (Nat × α)) (q : Nat) :
    q ∈ (assocInsert k v m).map Prod.fst ↔ q ∈ m.map Prod.fst ∨ q = k := by
  induction m with
  | nil => simp [assocInsert]
  | cons e rest ih =>
    obtain ⟨k', v'⟩ := e
    by_cases hk : k' = k
    · subst hk
      rw [show assocInsert k' v ((k', v') :: rest) = (k', v) :: rest from by
        simp [assocInsert]]
      simp only [List.map_cons, List.mem_cons]
      tauto
    · simp only [assocInsert, if_neg hk, List.map_cons, List.mem_cons, ih]
      tauto

theorem nodupKeys_cons {α : Type} {k' : Nat} {v' : α} {rest : List (Nat × α)} :
    NodupKeys ((k', v') :: rest) ↔ k' ∉ rest.map Prod.fst ∧ NodupKeys rest := by
  unfold NodupKeys
  simp only [List.map_cons]
  exact List.nodup_cons

theorem nodupKeys_assocInsert {α : Type} {k : Nat} {v : α} {m : List (Nat × α)}
    (hn : NodupKeys m) : NodupKeys (assocInsert k v m) := by
  induction m with
  | nil => simp [NodupKeys, assocInsert]
  | cons e rest ih =>
    obtain ⟨k', v'⟩ := e
    rw [nodupKeys_cons] at hn
    by_cases hk : k' = k
    · subst hk
      rw [show assocInsert k' v ((k', v') :: rest) = (k', v) :: rest from by simp [assocInsert]]
      rw [nodupKeys_cons]
      exact hn
    · rw [show assocInsert k v ((k', v') :: rest) = (k', v') :: assocInsert k v rest from by
        simp [assocInsert, hk]]
      rw [nodupKeys_cons]
      refine ⟨?_, ih hn.2⟩
      intro hmem
      rcases (keys_assocInsert k v rest k').mp hmem with h | h
      · exact hn.1 h
      · exact hk h

theorem assocGet_of_mem_nodup {α : Type} {k : Nat} {v : α} {m : List (Nat × α)}
    (hn : NodupKeys m) (h : (k, v) ∈ m) : assocGet k m = some v := by
  induction m with
  | nil => simp at h
  | cons e rest ih =>
    obtain ⟨k', v'⟩ := e
    rw [nodupKeys_cons] at hn
    rcases List.mem_cons.mp h with h' | h'
    · injection h' with h1 h2
      subst h1
      subst h2
      simp [assocGet]
    · by_cases hk : k' = k
      · subst hk
        exact absurd (List.mem_map.mpr ⟨(k', v), h', rfl⟩) hn.1
      · simp only [assocGet, if_neg hk]
        exact ih hn.2 h'

/-! ### `processSockets` as a fold over the socket targets -/

theorem processSockets_eq (d : Nat) (socks : List Socket) :
    ∀ m s, processSockets d socks m s
      = (insertAll d (socketTargets socks) m, (socketTargets socks).reverse ++ s) := by
  induction socks with
  | nil => intro m s; simp [processSockets, socketTargets, insertAll]
  | cons sock rest ih =>
    intro m s
    cases hd : sock.data with
    | none => simp [processSockets, socketTargets, hd, ih]
    | some dt =>
      cases dt with
      | otherData => simp [processSockets, socketTargets, hd, ih]
      | connection cid port =>
        by_cases h255 : cid = 255
        · simp [processSockets, socketTargets, hd, h255, ih]
        · simp [processSockets, socketTargets, hd, h255, ih, insertAll]

theorem not_mem_socketTargets_255 (socks : List Socket) : (255 : Nat) ∉ socketTargets socks := by
  induction socks with
  | nil => simp [socketTargets]
  | cons sock rest ih =>
    cases hd : sock.data with
    | none => simpa [socketTargets, hd] using ih
    | some dt =>
      cases dt with
      | otherData => simpa [socketTargets, hd] using ih
      | connection cid port =>
        by_cases h255 : cid = 255
        · simpa [socketTargets, hd, h255] using ih
        · simp [socketTargets, hd, h255]
          exact ⟨fun h => h255 h.symm, ih⟩

theorem mem_insertAll {d : Nat} {cs : List Nat} {p : Nat × Nat} :
    ∀ {m : List (Nat × Nat)}, p ∈ insertAll d cs m → p ∈ m ∨ (p.2 = d + 1 ∧ p.1 ∈ cs) := by
  induction cs with
  | nil => intro m h; exact Or.inl (by simpa [insertAll] using h)
  | cons c rest ih =>
    intro m h
    have h' : p ∈ insertAll d rest (assocInsert c (d + 1) m) := by
      simpa [insertAll] using h
    rcases ih h' with h'' | h''
    · rcases mem_assocInsert h'' with h3 | h3
      · exact Or.inl h3
      · subst h3
        exact Or.inr ⟨rfl, by simp⟩
    · exact Or.inr ⟨h''.1, List.mem_cons_of_mem _ h''.2⟩

theorem insertAll_get_not_mem {d : Nat} {cs : List Nat} {k : Nat} (hk : k ∉ cs) :
    ∀ m, assocGet k (insertAll d cs m) = assocGet k m := by
  induction cs with
  | nil => intro m; simp [insertAll]
  | cons c rest ih =>
    intro m
    have hkr : k ∉ rest := fun h => hk (List.mem_cons_of_mem _ h)
    have hkc : k ≠ c := fun h => hk (h ▸ List.mem_cons_self c rest)
    calc assocGet k (insertAll d (c :: rest) m)
        = assocGet k (insertAll d rest (assocInsert c (d + 1) m)) := by simp [insertAll]
      _ = assocGet k (assocInsert c (d + 1) m) := ih hkr _
      _ = assocGet k m := assocGet_insert_of_ne _ _ hkc

theorem nodupKeys_insertAll {d : Nat} {cs : List Nat} :
    ∀ {m : List (Nat × Nat)}, NodupKeys m → NodupKeys (insertAll d cs m) := by
  induction cs with
  | nil => intro m h; simpa [insertAll] using h
  | cons c rest ih =>
    intro m h
    have : NodupKeys (assocInsert c (d + 1) m) := nodupKeys_assocInsert h
    simpa [insertAll] using ih this

/-! ### Generic invariant preservation through the worklist loop -/

theorem loopStep_next_inv {table : List (Nat × Instance)} {st st' : LayoutState}
    (h : loopStep table st = StepRes.next st') :
    ∃ id rest d inst, st.to_process = id :: rest ∧ assocGet id st.depths = some d ∧
      assocGet id table = some inst ∧ st' = stepNext inst d st.depths rest st.max_depth := by
  obtain ⟨m, tp, md⟩ := st
  cases tp with
  | nil => simp [loopStep] at h
  | cons id rest =>
    simp only [loopStep] at h
    cases hd : assocGet id m with
    | none => rw [hd] at h; simp at h
    | some d =>
      rw [hd] at h
      cases hi : assocGet id table with
      | none => rw [hi] at h; simp at h
      | some inst =>
        rw [hi] at h
        simp only [StepRes.next.injEq] at h
        exact ⟨id, rest, d, inst, rfl, hd, hi, h.symm⟩

theorem loopStep_done_inv {table : List (Nat × Instance)} {st : LayoutState}
    (h : loopStep table st = StepRes.done) : st.to_process = [] := by
  obtain ⟨m, tp, md⟩ := st
  cases tp with
  | nil => rfl
  | cons id rest =>
    simp only [loopStep] at h
    cases hd : assocGet id m with
    | none => rw [hd] at h; simp at h
    | some d =>
      rw [hd] at h
      cases hi : assocGet id table with
      | none => rw [hi] at h; simp at h
      | some inst => rw [hi] at h; simp at h

theorem runLoop_inv (table : List (Nat × Instance)) (P : LayoutState → Prop)
    (hstep : ∀ st st', loopStep table st = StepRes.next st' → P st → P st') :
    ∀ fuel st stf, P st → runLoop table fuel st = some (LoopOutcome.finished stf) → P stf := by
  intro fuel
  induction fuel with
  | zero => intro st stf _ h; simp [runLoop] at h
  | succ n ih =>
    intro st stf hP hrun
    rw [runLoop] at hrun
    cases hls : loopStep table st with
    | done =>
      rw [hls] at hrun
      simp at hrun
      exact hrun ▸ hP
    | panic => rw [hls] at hrun; simp at hrun
    | next st' =>
      rw [hls] at hrun
      exact ih st' stf (hstep st st' hls hP) hrun

theorem runLoop_finished_to_process (table : List (Nat × Instance)) :
    ∀ fuel st stf, runLoop table fuel st = some (LoopOutcome.finished stf) →
      stf.to_process = [] := by
  intro fuel
  induction fuel with
  | zero => intro st stf h; simp [runLoop] at h
  | succ n ih =>
    intro st stf hrun
    rw [runLoop] at hrun
    cases hls : loopStep table st with
    | done =>
      rw [hls] at hrun
      simp at hrun
      exact hrun ▸ loopStep_done_inv hls
    | panic => rw [hls] at hrun; simp at hrun
    | next st' =>
      rw [hls] at hrun
      exact ih st' stf hrun

/-! ### Seeding lemmas -/

theorem seed_max_depth (outs : List (Nat × Nat)) :
    ∀ st : LayoutState, (outs.foldl seedStep st).max_depth = st.max_depth := by
  induction outs with
  | nil => intro st; rfl
  | cons c rest ih =>
    intro st
    rw [List.foldl_cons, ih]
    by_cases hc : c.1 = 255 <;> simp [seedStep, hc]

theorem seed_mem_aux (outs : List (Nat × Nat)) :
    ∀ (st : LayoutState) (p : Nat × Nat), p ∈ (outs.foldl seedStep st).depths →
      p ∈ st.depths ∨ (p.2 = 0 ∧ p.1 ≠ 255) := by
  induction outs with
  | nil => intro st p h; exact Or.inl (by simpa using h)
  | cons c rest ih =>
    intro st p h
    rw [List.foldl_cons] at h
    rcases ih (seedStep st c) p h with h' | h'
    · by_cases hc : c.1 = 255
      · simp only [seedStep, if_pos hc] at h'
        exact Or.inl h'
      · simp only [seedStep, if_neg hc] at h'
        rcases mem_assocInsert h' with h'' | h''
        · exact Or.inl h''
        · subst h''
          exact Or.inr ⟨rfl, hc⟩
    · exact Or.inr h'

theorem seed_stack_aux (outs : List (Nat × Nat)) :
    ∀ (st : LayoutState) (x : Nat), x ∈ (outs.foldl seedStep st).to_process →
      x ∈ st.to_process ∨ x ≠ 255 := by
  induction outs with
  | nil => intro st x h; exact Or.inl (by simpa using h)
  | cons c rest ih =>
    intro st x h
    rw [List.foldl_cons] at h
    rcases ih (seedStep st c) x h with h' | h'
    · by_cases hc : c.1 = 255
      · simp only [seedStep, if_pos hc] at h'
        exact Or.inl h'
      · simp only [seedStep, if_neg hc] at h'
        rcases List.mem_cons.mp h' with h'' | h''
        · subst h''
          exact Or.inr hc
        · exact Or.inl h''
    · exact Or.inr h'

theorem seed_nodup_aux (outs : List (Nat × Nat)) :
    ∀ st : LayoutState, NodupKeys st.depths → NodupKeys (outs.foldl seedStep st).depths := by
  induction outs with
  | nil => intro st h; simpa using h
  | cons c rest ih =>
    intro st h
    rw [List.foldl_cons]
    apply ih
    by_cases hc : c.1 = 255
    · simpa [seedStep, hc] using h
    · simp only [seedStep, if_neg hc]
      exact nodupKeys_assocInsert h

theorem seed_get_zero_preserved (outs : List (Nat × Nat)) :
    ∀ (st : LayoutState) (k : Nat), assocGet k st.depths = some 0 →
      assocGet k (outs.foldl seedStep st).depths = some 0 := by
  induction outs with
  | nil => intro st k h; simpa using h
  | cons c rest ih =>
    intro st k h
    rw [List.foldl_cons]
    apply ih
    by_cases hc : c.1 = 255
    · simpa [seedStep, hc] using h
    · simp only [seedStep, if_neg hc]
      by_cases hck : c.1 = k
      · subst hck
        rw [assocGet_insert_self]
      · rw [assocGet_insert_of_ne _ _ (fun hh => hck hh.symm)]
        exact h

theorem seed_get_zero (k p : Nat) (hk : k ≠ 255) (outs : List (Nat × Nat)) :
    ∀ st : LayoutState, (k, p) ∈ outs →
      assocGet k (outs.foldl seedStep st).depths = some 0 := by
  induction outs with
  | nil => intro st h; simp at h
  | cons c rest ih =>
    intro st h
    rw [List.foldl_cons]
    by_cases hck : c.1 = k
    · apply seed_get_zero_preserved
      have hc : ¬ c.1 = 255 := by rw [hck]; exact hk
      simp only [seedStep, if_neg hc]
      rw [hck, assocGet_insert_self]
    · rcases List.mem_cons.mp h with h' | h'
      · exact absurd (congrArg Prod.fst h').symm hck
      · exact ih (seedStep st c) h'

/-! ### The loop invariant -/

theorem stepNext_eq (inst : Instance) (d : Nat) (m : List (Nat × Nat)) (rest : List Nat)
    (md : Nat) :
    stepNext inst d m rest md
      = ⟨insertAll d (socketTargets inst.sockets) m,
         (socketTargets inst.sockets).reverse ++ rest, max md d⟩ := by
  simp [stepNext, processSockets_eq]

theorem loopInv_step (table : List (Nat × Instance)) :
    ∀ st st', loopStep table st = StepRes.next st' → LoopInv st → LoopInv st' := by
  intro st st' h hP
  obtain ⟨id, rest, d, inst, hstack, hd, hi, hst'⟩ := loopStep_next_inv h
  obtain ⟨hnd, hbound, h255, h255s⟩ := hP
  subst hst'
  rw [stepNext_eq]
  refine ⟨nodupKeys_insertAll hnd, ?_, ?_, ?_⟩
  · intro q hq
    rcases mem_insertAll hq with hq' | hq'
    · rcases hbound q hq' with hb | hb
      · exact Or.inl (le_trans hb (le_max_left _ _))
      · rw [hstack] at hb
        rcases List.mem_cons.mp hb with hb' | hb'
        · have hq2 : (q.1, q.2) ∈ st.depths := by simpa using hq'
          have hgq := assocGet_of_mem_nodup hnd hq2
          rw [hb', hd] at hgq
          have : q.2 = d := by injection hgq.symm
          exact Or.inl (this ▸ le_max_right _ _)
        · exact Or.inr (List.mem_append.mpr (Or.inr hb'))
    · exact Or.inr (List.mem_append.mpr (Or.inl (List.mem_reverse.mpr hq'.2)))
  · intro v hv
    rcases mem_insertAll hv with hv' | hv'
    · exact h255 v hv'
    · exact not_mem_socketTargets_255 _ hv'.2
  · intro hmem
    rcases List.mem_append.mp hmem with hm | hm
    · exact not_mem_socketTargets_255 _ (List.mem_reverse.mp hm)
    · exact h255s (by rw [hstack]; exact List.mem_cons_of_mem _ hm)

theorem loopInv_seed (outs : List (Nat × Nat)) : LoopInv (seedState outs) := by
  refine ⟨?_, ?_, ?_, ?_⟩
  · exact seed_nodup_aux outs ⟨[], [], 0⟩ (by simp [NodupKeys])
  · intro p hp
    rcases seed_mem_aux outs ⟨[], [], 0⟩ p hp with h | h
    · simp at h
    · refine Or.inl ?_
      rw [show (seedState outs).max_depth = 0 from seed_max_depth outs ⟨[], [], 0⟩]
      omega
  · intro v hv
    rcases seed_mem_aux outs ⟨[], [], 0⟩ (255, v) hv with h | h
    · simp at h
    · exact h.2 rfl
  · intro hm
    rcases seed_stack_aux outs ⟨[], [], 0⟩ 255 hm with h | h
    · simp at h
    · exact h rfl

theorem final_state_facts {outs : List (Nat × Nat)} {table : List (Nat × Instance)}
    {fuel : Nat} {stf : LayoutState}
    (hrun : runLoop table fuel (seedState outs) = some (LoopOutcome.finished stf)) :
    NodupKeys stf.depths ∧ (∀ p ∈ stf.depths, p.2 ≤ stf.max_depth) ∧
      (∀ v, (255, v) ∉ stf.depths) ∧ stf.to_process = [] := by
  have hstack := runLoop_finished_to_process table fuel _ stf hrun
  have hinv := runLoop_inv table LoopInv (loopInv_step table) fuel _ stf (loopInv_seed outs) hrun
  refine ⟨hinv.1, ?_, hinv.2.2.1, hstack⟩
  intro p hp
  rcases hinv.2.1 p hp with h | h
  · exact h
  · rw [hstack] at h
    simp at h

theorem untargeted_get_step (table : List (Nat × Instance)) (k : Nat)
    (hnt : noConnectionTo table k) :
    ∀ st st', loopStep table st = StepRes.next st' →
      assocGet k st.depths = some 0 → assocGet k st'.depths = some 0 := by
  intro st st' h hg
  obtain ⟨id, rest, d, inst, hstack, hd, hi, hst'⟩ := loopStep_next_inv h
  subst hst'
  rw [stepNext_eq]
  have hmem : (id, inst) ∈ table := mem_of_assocGet hi
  have hk : k ∉ socketTargets inst.sockets := hnt (id, inst) hmem
  show assocGet k (insertAll d (socketTargets inst.sockets) st.depths) = some 0
  rw [insertAll_get_not_mem hk]
  exact hg

/-! ### Column-building lemmas -/

theorem pushAt_length {k : Nat} :
    ∀ (d : Nat) (cols cols' : List (List Nat)), pushAt cols d k = some cols' →
      cols'.length = cols.length := by
  intro d
  induction d with
  | zero =>
    intro cols cols' h
    cases cols with
    | nil => simp [pushAt] at h
    | cons c rest =>
      have h' : (c ++ [k]) :: rest = cols' := by simpa [pushAt] using h
      rw [← h']
      simp
  | succ d ih =>
    intro cols cols' h
    cases cols with
    | nil => simp [pushAt] at h
    | cons c rest =>
      cases hp : pushAt rest d k with
      | none => simp [pushAt, hp] at h
      | some rest' =>
        have h' : c :: rest' = cols' := by simpa [pushAt, hp] using h
        rw [← h']
        simp [ih rest rest' hp]

theorem pushAt_isSome (k : Nat) :
    ∀ (d : Nat) (cols : List (List Nat)), d < cols.length → (pushAt cols d k).isSome := by
  intro d
  induction d with
  | zero =>
    intro cols h
    cases cols with
    | nil => simp at h
    | cons c rest => simp [pushAt]
  | succ d ih =>
    intro cols h
    cases cols with
    | nil => simp at h
    | cons c rest =>
      have hlt : d < rest.length := by simpa using h
      have h2 := ih rest hlt
      cases hp : pushAt rest d k with
      | none => rw [hp] at h2; simp at h2
      | some rest' => simp [pushAt, hp]

theorem pushAt_count {k : Nat} :
    ∀ (d : Nat) (cols cols' : List (List Nat)), pushAt cols d k = some cols' →
      ∀ x, countInCols cols' x = countInCols cols x + if x = k then 1 else 0 := by
  intro d
  induction d with
  | zero =>
    intro cols cols' h x
    cases cols with
    | nil => simp [pushAt] at h
    | cons c rest =>
      have h' : (c ++ [k]) :: rest = cols' := by simpa [pushAt] using h
      rw [← h']
      have hck : List.count x [k] = if x = k then 1 else 0 := by
        by_cases hxk : x = k <;> simp [hxk]
      simp [countInCols, List.count_append, hck]
      omega
  | succ d ih =>
    intro cols cols' h x
    cases cols with
    | nil => simp [pushAt] at h
    | cons c rest =>
      cases hp : pushAt rest d k with
      | none => simp [pushAt, hp] at h
      | some rest' =>
        have h' : c :: rest' = cols' := by simpa [pushAt, hp] using h
        rw [← h']
        have := ih rest rest' hp x
        simp [countInCols] at this ⊢
        omega

theorem pushAt_mem {k x : Nat} :
    ∀ (d : Nat) (cols cols' : List (List Nat)), pushAt cols d k = some cols' →
      ∀ col' ∈ cols', x ∈ col' → (∃ col ∈ cols, x ∈ col) ∨ x = k := by
  intro d
  induction d with
  | zero =>
    intro cols cols' h col' hcol' hx
    cases cols with
    | nil => simp [pushAt] at h
    | cons c rest =>
      have h' : (c ++ [k]) :: rest = cols' := by simpa [pushAt] using h
      rw [← h'] at hcol'
      rcases List.mem_cons.mp hcol' with hc | hc
      · subst hc
        rcases List.mem_append.mp hx with hx' | hx'
        · exact Or.inl ⟨c, List.mem_cons_self _ _, hx'⟩
        · exact Or.inr (by simpa using hx')
      · exact Or.inl ⟨col', List.mem_cons_of_mem _ hc, hx⟩
  | succ d ih =>
    intro cols cols' h col' hcol' hx
    cases cols with
    | nil => simp [pushAt] at h
    | cons c rest =>
      cases hp : pushAt rest d k with
      | none => simp [pushAt, hp] at h
      | some rest' =>
        have h' : c :: rest' = cols' := by simpa [pushAt, hp] using h
        rw [← h'] at hcol'
        rcases List.mem_cons.mp hcol' with hc | hc
        · subst hc
          exact Or.inl ⟨col', List.mem_cons_self _ _, hx⟩
        · rcases ih rest rest' hp col' hc hx with ⟨col, hcm, hxm⟩ | h2
          · exact Or.inl ⟨col, List.mem_cons_of_mem _ hcm, hxm⟩
          · exact Or.inr h2

theorem buildColumnsAux_length :
    ∀ (m : List (Nat × Nat)) (cols cols' : List (List Nat)),
      buildColumnsAux cols m = some cols' → cols'.length = cols.length := by
  intro m
  induction m with
  | nil =>
    intro cols cols' h
    have h' : cols = cols' := by simpa [buildColumnsAux] using h
    rw [h']
  | cons e rest ih =>
    intro cols cols' h
    obtain ⟨k, d⟩ := e
    cases hp : pushAt cols d k with
    | none => simp [buildColumnsAux, hp] at h
    | some cols1 =>
      have h' : buildColumnsAux cols1 rest = some cols' := by
        simpa [buildColumnsAux, hp] using h
      rw [ih cols1 cols' h', pushAt_length d cols cols1 hp]

theorem buildColumnsAux_count :
    ∀ (m : List (Nat × Nat)) (cols cols' : List (List Nat)),
      buildColumnsAux cols m = some cols' →
      ∀ x, countInCols cols' x = countInCols cols x + (m.map Prod.fst).count x := by
  intro m
  induction m with
  | nil =>
    intro cols cols' h x
    have h' : cols = cols' := by simpa [buildColumnsAux] using h
    rw [← h']
    simp
  | cons e rest ih =>
    intro cols cols' h x
    obtain ⟨k, d⟩ := e
    cases hp : pushAt cols d k with
    | none => simp [buildColumnsAux, hp] at h
    | some cols1 =>
      have h' : buildColumnsAux cols1 rest = some cols' := by
        simpa [buildColumnsAux, hp] using h
      rw [ih cols1 cols' h' x, pushAt_count d cols cols1 hp x]
      have : List.count x (k :: rest.map Prod.fst)
          = List.count x (rest.map Prod.fst) + if x = k then 1 else 0 := by
        by_cases hxk : x = k <;> simp [hxk, List.count_cons]
      simp only [List.map_cons, this]
      omega

theorem buildColumnsAux_mem {x : Nat} :
    ∀ (m : List (Nat × Nat)) (cols cols' : List (List Nat)),
      buildColumnsAux cols m = some cols' →
      ∀ col' ∈ cols', x ∈ col' → (∃ col ∈ cols, x ∈ col) ∨ x ∈ m.map Prod.fst := by
  intro m
  induction m with
  | nil =>
    intro cols cols' h col' hcol' hx
    have h' : cols = cols' := by simpa [buildColumnsAux] using h
    exact Or.inl ⟨col', h' ▸ hcol', hx⟩
  | cons e rest ih =>
    intro cols cols' h col' hcol' hx
    obtain ⟨k, d⟩ := e
    cases hp : pushAt cols d k with
    | none => simp [buildColumnsAux, hp] at h
    | some cols1 =>
      have h' : buildColumnsAux cols1 rest = some cols' := by
        simpa [buildColumnsAux, hp] using h
      rcases ih cols1 cols' h' col' hcol' hx with ⟨col, hcm, hxm⟩ | h2
      · rcases pushAt_mem d cols cols1 hp col hcm hxm with h3 | h3
        · exact Or.inl h3
        · exact Or.inr (by simp [h3])
      · exact Or.inr (List.mem_cons_of_mem _ h2)

theorem buildColumnsAux_isSome :
    ∀ (m : List (Nat × Nat)) (cols : List (List Nat)),
      (∀ p ∈ m, p.2 < cols.length) → (buildColumnsAux cols m).isSome := by
  intro m
  induction m with
  | nil => intro cols _; simp [buildColumnsAux]
  | cons e rest ih =>
    intro cols hb
    obtain ⟨k, d⟩ := e
    have hd : d < cols.length := hb (k, d) (List.mem_cons_self _ _)
    have hs := pushAt_isSome k d cols hd
    cases hp : pushAt cols d k with
    | none => rw [hp] at hs; simp at hs
    | some cols1 =>
      have hlen : cols1.length = cols.length := pushAt_length d cols cols1 hp
      have : ∀ p ∈ rest, p.2 < cols1.length := by
        intro p hp'
        rw [hlen]
        exact hb p (List.mem_cons_of_mem _ hp')
      have := ih cols1 this
      simpa [buildColumnsAux, hp] using this

/-! ### Render-loop lemmas -/

theorem run_renderer_const (r : NodeDefRenderer) :
    ∀ frames, (run r frames).2.2 = r := by
  intro frames
  induction frames with
  | nil => rfl
  | cons f rest ih =>
    cases f with
    | drawErr e => rfl
    | readErr e => rfl
    | event ev =>
      cases ev with
      | key ke =>
        by_cases hq : isQuitKey ke
        · simp [run, hq]
        · simp [run, hq, ih]
      | nonKey => simp [run, ih]

theorem run_skips_benign (r : NodeDefRenderer) :
    ∀ (pre rest : List Frame), (∀ f ∈ pre, benign f = true) →
      run r (pre ++ rest)
        = (List.replicate pre.length Action.draw ++ (run r rest).1, (run r rest).2) := by
  intro pre
  induction pre with
  | nil => intro rest _; simp
  | cons f pre' ih =>
    intro rest h
    have hf : benign f = true := h f (List.mem_cons_self _ _)
    have h' : ∀ g ∈ pre', benign g = true := fun g hg => h g (List.mem_cons_of_mem _ hg)
    cases f with
    | drawErr e => simp [benign] at hf
    | readErr e => simp [benign] at hf
    | event ev =>
      cases ev with
      | key ke =>
        have hq : isQuitKey ke = false := by simpa [benign] using hf
        simp [run, hq, ih rest h', List.replicate_succ]
      | nonKey => simp [run, ih rest h', List.replicate_succ]

theorem from_node_ok_inv {fuel : Nat} {g : NodeGraphV1} {r : NodeDefRenderer}
    (h : from_node fuel (Node.V1 g) = some (Except.ok r)) :
    r.x_shift = 0 ∧ r.y_shift = 0 := by
  simp only [from_node] at h
  cases hl : init_layout g.roots.output_connections (buildTable g.instances) fuel with
  | none => rw [hl] at h; simp at h
  | some res =>
    rw [hl] at h
    cases res with
    | panicked => simp at h
    | ok cols md =>
      simp at h
      subst h
      exact ⟨rfl, rfl⟩

/-! ### Overdraw-buffer lemmas -/

theorem mem_rectCoords {r : IntRect} {p : Int × Int} :
    p ∈ rectCoords r ↔ inRect r p := by
  obtain ⟨p1, p2⟩ := p
  constructor
  · intro h
    unfold rectCoords at h
    rw [List.mem_flatMap] at h
    obtain ⟨i, hi, hmem⟩ := h
    rw [List.mem_map] at hmem
    obtain ⟨j, hj, hpe⟩ := hmem
    rw [List.mem_range] at hi hj
    injection hpe with h1 h2
    show r.x ≤ p1 ∧ p1 < r.x + r.w ∧ r.y ≤ p2 ∧ p2 < r.y + r.h
    refine ⟨?_, ?_, ?_, ?_⟩ <;> omega
  · intro h
    have h' : r.x ≤ p1 ∧ p1 < r.x + r.w ∧ r.y ≤ p2 ∧ p2 < r.y + r.h := h
    obtain ⟨h1, h2, h3, h4⟩ := h'
    unfold rectCoords
    rw [List.mem_flatMap]
    refine ⟨(p1 - r.x).toNat, ?_, ?_⟩
    · rw [List.mem_range]; omega
    · rw [List.mem_map]
      refine ⟨(p2 - r.y).toNat, ?_, ?_⟩
      · rw [List.mem_range]; omega
      · simp only [Prod.mk.injEq]
        constructor <;> omega

theorem inRect_clip {r : IntRect} {w h : Nat} {p : Int × Int} :
    inRect (clipRect r w h) p
      ↔ inRect r p ∧ 0 ≤ p.1 ∧ p.1 < w ∧ 0 ≤ p.2 ∧ p.2 < h := by
  unfold inRect clipRect
  simp only []
  constructor <;> intro hh <;> omega

theorem foldl_writeCell {v : Nat} :
    ∀ (l : List (Int × Int)) (c : Int → Int → Nat) (a b : Int),
      (l.foldl (writeCell v) c) a b = if (a, b) ∈ l then v else c a b := by
  intro l
  induction l with
  | nil => intro c a b; simp
  | cons p rest ih =>
    intro c a b
    obtain ⟨p1, p2⟩ := p
    rw [List.foldl_cons, ih]
    by_cases hm : (a, b) ∈ rest
    · simp [hm]
    · by_cases h1 : a = p1
      · by_cases h2 : b = p2
        · subst h1
          subst h2
          simp [hm, writeCell]
        · simp [hm, writeCell, h1, h2]
      · simp [hm, writeCell, h1]

theorem drawRect_cells (buf : OverdrawBuffer) (r : IntRect) (sx sy : Int) (v : Nat)
    (a b : Int) :
    (drawRect buf r sx sy v).cells a b
      = if (a, b) ∈ writtenCoords buf r sx sy then v else buf.cells a b := by
  unfold drawRect
  exact foldl_writeCell _ _ _ _

theorem mem_writtenCoords {buf : OverdrawBuffer} {r : IntRect} {sx sy : Int}
    {p : Int × Int} :
    p ∈ writtenCoords buf r sx sy
      ↔ inRect (translateRect r sx sy) p
        ∧ 0 ≤ p.1 ∧ p.1 < buf.width ∧ 0 ≤ p.2 ∧ p.2 < buf.height := by
  unfold writtenCoords
  rw [mem_rectCoords, inRect_clip]

/-! ### Self-loop non-termination helper -/

theorem selfLoop_shape_runs_forever :
    ∀ (n : Nat) (st : LayoutState) (dv : Nat), st.depths = [(1, dv)] → st.to_process = [1] →
      runLoop selfLoopTable n st = none := by
  intro n
  induction n with
  | zero => intro st dv _ _; rfl
  | succ n ih =>
    intro st dv h1 h2
    rw [runLoop]
    have hls : loopStep selfLoopTable st
        = StepRes.next ⟨[(1, dv + 1)], [1], max st.max_depth dv⟩ := by
      obtain ⟨m, tp, md⟩ := st
      simp only [LayoutState.depths] at h1
      simp only [LayoutState.to_process] at h2
      subst h1
      subst h2
      simp [loopStep, selfLoopTable, assocGet, stepNext, processSockets, assocInsert]
    rw [hls]
    exact ih _ (dv + 1) rfl rfl

/-! ### Claim theorems -/

/-- Claim C1 (code bug): the claim states that `init_layout` records, for
every instance, the maximum depth proposal ever made for it.  The code uses
`depths.insert(...)`, which overwrites, so the value that survives is the
proposal of whichever connection was processed last.  On `diamondTable`
(instance 4 reachable from the output boundary via a path of length 1 and a
path of length 3) the loop finishes with depth 1 recorded for instance 4
although a proposal of 2 was made while processing instance 3 — and the
final map violates the claim's equation, since instance 3 (depth 1) has an
input-socket connection to instance 4 (depth 1, not 2).  Note the code's own
comment (lines 22-25 of `tui.rs`) states the maximum rule. -/
theorem c1_depth_not_max_of_proposals :
    initLayoutRun diamondOuts diamondTable 10
      = some (LoopOutcome.finished ⟨[(1, 0), (2, 0), (3, 1), (4, 1)], [], 2⟩)
    ∧ assocGet 3 [(1, 0), (2, 0), (3, 1), (4, 1)] = some 1
    ∧ assocGet 4 [(1, 0), (2, 0), (3, 1), (4, 1)] = some 1
    ∧ depthRespectsProposals diamondTable [(1, 0), (2, 0), (3, 1), (4, 1)] = false := by
  decide

/-- Claim C2 (counterexample): instance 2 of `chainTable` has no connected
input socket, yet `init_layout` records depth 1 for it, not 0 — the code
labels depth from the output boundary (seeds get 0), not from the
input-less instances. -/
theorem c2_inputless_depth_nonzero :
    hasConnectedInput ⟨2, []⟩ = false
    ∧ assocGet 2 chainTable = some ⟨2, []⟩
    ∧ initLayoutRun chainOuts chainTable 10
        = some (LoopOutcome.finished ⟨[(1, 0), (2, 1)], [], 1⟩)
    ∧ assocGet 2 [(1, 0), (2, 1)] ≠ some 0 := by
  decide

/-- Claim C2 (amended): depth 0 is what the output-boundary seeds get, not
the input-less instances: an instance listed in the output Root's
connections (id other than 255) that no instance's input socket connects to
ends with depth 0 in the final map whenever the worklist loop finishes. -/
theorem c2_seed_depth_zero (outs : List (Nat × Nat)) (table : List (Nat × Instance))
    (fuel : Nat) (stf : LayoutState) (k p : Nat)
    (hk : k ≠ 255) (hmem : (k, p) ∈ outs) (hnt : noConnectionTo table k)
    (hrun : runLoop table fuel (seedState outs) = some (LoopOutcome.finished stf)) :
    assocGet k stf.depths = some 0 :=
  runLoop_inv table (fun st => assocGet k st.depths = some 0)
    (untargeted_get_step table k hnt) fuel _ stf
    (seed_get_zero k p hk outs ⟨[], [], 0⟩ hmem) hrun

/-- Witness for C2's amended theorem at the chain graph. -/
theorem c2_seed_depth_zero_witness :
    assocGet 1 (⟨[(1, 0), (2, 1)], [], 1⟩ : LayoutState).depths = some 0 :=
  c2_seed_depth_zero chainOuts chainTable 10 ⟨[(1, 0), (2, 1)], [], 1⟩ 1 0
    (by decide) (by decide) (by unfold noConnectionTo; decide) (by decide)

/-- Claim C3 (counterexample): on the self-loop graph the worklist loop
never terminates — after any number of iterations it is still running (no
bounded iteration count, no failure, contrary to the claim that a cycle is
detected and reported). -/
theorem c3_selfloop_never_terminates : selfLoopRunsForever :=
  fun n => selfLoop_shape_runs_forever n (seedState selfLoopOuts) 0 rfl rfl

/-- Claim C3 (amended): the traversal terminates when the worklist empties
(as on the acyclic chain graph), but it performs no cycle detection at all:
on a cyclic input it loops forever instead of failing. -/
theorem c3_no_cycle_detection :
    initLayoutRun chainOuts chainTable 10
      = some (LoopOutcome.finished ⟨[(1, 0), (2, 1)], [], 1⟩)
    ∧ ∀ n : Nat, initLayoutRun selfLoopOuts selfLoopTable n = none :=
  ⟨by decide, fun n => selfLoop_shape_runs_forever n (seedState selfLoopOuts) 0 rfl rfl⟩

/-- Claim C4 (counterexample): instance 7 of `strayTable` is non-sentinel
and present in the instance table, but unreachable from the output
boundary, so it never enters the depth map and appears in no column — the
columns do not partition all non-sentinel instances of the table. -/
theorem c4_unreachable_instance_missing :
    init_layout strayOuts strayTable 10 = some (LayoutResult.ok [[1]] 0)
    ∧ assocGet 7 strayTable ≠ none
    ∧ (7 : Nat) ≠ 255
    ∧ countInCols [[1]] 7 = 0 := by
  decide

/-- Claim C4 (amended): the columns partition the keys of the final depth
map (the instances actually reached from the output boundary): there are
`max_depth + 1` columns, every key of the depth map occurs in the columns
exactly once, and every id absent from the depth map occurs zero times. -/
theorem c4_columns_partition_depth_map (outs : List (Nat × Nat))
    (table : List (Nat × Instance)) (fuel : Nat) (stf : LayoutState)
    (cols : List (List Nat))
    (hrun : runLoop table fuel (seedState outs) = some (LoopOutcome.finished stf))
    (hcols : buildColumns stf.depths stf.max_depth = some cols) :
    cols.length = stf.max_depth + 1
    ∧ (∀ k, assocGet k stf.depths ≠ none → countInCols cols k = 1)
    ∧ (∀ k, assocGet k stf.depths = none → countInCols cols k = 0) := by
  obtain ⟨hnd, hb, h255, hstk⟩ := final_state_facts hrun
  have hlen : cols.length = (List.replicate (stf.max_depth + 1) ([] : List Nat)).length :=
    buildColumnsAux_length stf.depths _ cols hcols
  have hcount := buildColumnsAux_count stf.depths _ cols hcols
  have hzero : ∀ x, countInCols (List.replicate (stf.max_depth + 1) ([] : List Nat)) x = 0 := by
    intro x
    simp [countInCols]
  refine ⟨by simpa using hlen, ?_, ?_⟩
  · intro k hk
    rw [hcount k, hzero k]
    have hmemk : k ∈ stf.depths.map Prod.fst := (assocGet_ne_none_iff k stf.depths).mp hk
    simpa using List.count_eq_one_of_mem hnd hmemk
  · intro k hk
    rw [hcount k, hzero k]
    have hnm : k ∉ stf.depths.map Prod.fst := fun hmem =>
      ((assocGet_ne_none_iff k stf.depths).mpr hmem) hk
    simpa using List.count_eq_zero.mpr hnm

/-- Witness for C4's amended theorem at the chain graph. -/
theorem c4_columns_partition_witness :
    countInCols [[1], [2]] 1 = 1 :=
  (c4_columns_partition_depth_map chainOuts chainTable 10 ⟨[(1, 0), (2, 1)], [], 1⟩
    [[1], [2]] (by decide) (by decide)).2.1 1 (by decide)

/-- Claim C5 (confirmed): whenever the worklist loop finishes, the 255
sentinel is not a key of the final depth map, and it sits in no column of
the built layout — both seeding and socket processing skip it. -/
theorem c5_sentinel_never_in_depths_or_columns (outs : List (Nat × Nat))
    (table : List (Nat × Instance)) (fuel : Nat) (stf : LayoutState)
    (cols : List (List Nat))
    (hrun : runLoop table fuel (seedState outs) = some (LoopOutcome.finished stf))
    (hcols : buildColumns stf.depths stf.max_depth = some cols) :
    assocGet 255 stf.depths = none ∧ ∀ col ∈ cols, (255 : Nat) ∉ col := by
  obtain ⟨hnd, hb, h255, hstk⟩ := final_state_facts hrun
  have hget : assocGet 255 stf.depths = none := (assocGet_none_iff 255 stf.depths).mpr h255
  refine ⟨hget, ?_⟩
  intro col hcol hmem
  rcases buildColumnsAux_mem stf.depths _ cols hcols col hcol hmem with ⟨col0, hc0, hm0⟩ | h2
  · have hcol0 : col0 = [] := List.eq_of_mem_replicate hc0
    rw [hcol0] at hm0
    simp at hm0
  · exact ((assocGet_ne_none_iff 255 stf.depths).mpr h2) hget

/-- Witness for C5 at the chain graph. -/
theorem c5_sentinel_witness :
    assocGet 255 (⟨[(1, 0), (2, 1)], [], 1⟩ : LayoutState).depths = none :=
  (c5_sentinel_never_in_depths_or_columns chainOuts chainTable 10
    ⟨[(1, 0), (2, 1)], [], 1⟩ [[1], [2]] (by decide) (by decide)).1

/-- Claim C10 (confirmed): whenever the worklist loop finishes, every depth
value left in the final map is at most the computed `max_depth`, so the
reorganization into `max_depth + 1` columns never indexes out of bounds
(`buildColumns` never returns `none`). -/
theorem c10_depths_bounded_columns_in_range (outs : List (Nat × Nat))
    (table : List (Nat × Instance)) (fuel : Nat) (stf : LayoutState)
    (hrun : runLoop table fuel (seedState outs) = some (LoopOutcome.finished stf)) :
    (∀ p ∈ stf.depths, p.2 ≤ stf.max_depth)
    ∧ buildColumns stf.depths stf.max_depth ≠ none := by
  obtain ⟨hnd, hb, h255, hstk⟩ := final_state_facts hrun
  refine ⟨hb, ?_⟩
  have hlt : ∀ p ∈ stf.depths,
      p.2 < (List.replicate (stf.max_depth + 1) ([] : List Nat)).length := by
    intro p hp
    have := hb p hp
    simp
    omega
  have hsome := buildColumnsAux_isSome stf.depths _ hlt
  intro hnone
  rw [show buildColumns stf.depths stf.max_depth
      = buildColumnsAux (List.replicate (stf.max_depth + 1) []) stf.depths from rfl] at hnone
  rw [hnone] at hsome
  simp at hsome

/-- Witness for C10 at the chain graph. -/
theorem c10_columns_in_range_witness :
    buildColumns [(1, 0), (2, 1)] 1 ≠ none :=
  (c10_depths_bounded_columns_in_range chainOuts chainTable 10
    ⟨[(1, 0), (2, 1)], [], 1⟩ (by decide)).2

/-- Claim C6 (confirmed against the spec model, the source's
`OverdrawBuffer` being an empty scaffold): a rectangle draw through the
buffer writes only coordinates inside the grid; a request whose translated
rectangle lies fully outside the grid changes no cell; and any cell that
changes lies both inside the translated request and inside the grid — for
every buffer, rectangle, scroll offset and fill value. -/
theorem c6_overdraw_clipping (buf : OverdrawBuffer) (r : IntRect) (sx sy : Int) (v : Nat) :
    (∀ p ∈ writtenCoords buf r sx sy,
        0 ≤ p.1 ∧ p.1 < buf.width ∧ 0 ≤ p.2 ∧ p.2 < buf.height)
    ∧ (outsideGrid (translateRect r sx sy) buf.width buf.height →
        ∀ a b, (drawRect buf r sx sy v).cells a b = buf.cells a b)
    ∧ (∀ a b, (drawRect buf r sx sy v).cells a b ≠ buf.cells a b →
        inRect (translateRect r sx sy) (a, b)
          ∧ 0 ≤ a ∧ a < buf.width ∧ 0 ≤ b ∧ b < buf.height) := by
  refine ⟨?_, ?_, ?_⟩
  · intro p hp
    exact (mem_writtenCoords.mp hp).2
  · intro hout a b
    rw [drawRect_cells, if_neg]
    intro hmem
    obtain ⟨hr, h1, h2, h3, h4⟩ := mem_writtenCoords.mp hmem
    have hcomp : r.x + sx ≤ a ∧ a < r.x + sx + (r.w : Int)
        ∧ r.y + sy ≤ b ∧ b < r.y + sy + (r.h : Int) := hr
    have hga : (0 : Int) ≤ a := h1
    have hgb : a < (buf.width : Int) := h2
    have hgc : (0 : Int) ≤ b := h3
    have hgd : b < (buf.height : Int) := h4
    have hout' : (buf.width : Int) ≤ r.x + sx ∨ r.x + sx + (r.w : Int) ≤ 0
        ∨ (buf.height : Int) ≤ r.y + sy ∨ r.y + sy + (r.h : Int) ≤ 0 := hout
    obtain ⟨hc1, hc2, hc3, hc4⟩ := hcomp
    rcases hout' with h | h | h | h <;> omega
  · intro a b hne
    rw [drawRect_cells] at hne
    by_cases hmem : (a, b) ∈ writtenCoords buf r sx sy
    · have h := mem_writtenCoords.mp hmem
      exact ⟨h.1, h.2⟩
    · rw [if_neg hmem] at hne
      exact absurd rfl hne

/-- Witness for C6: drawing `rectFarOut` (fully outside the 4 x 3 buffer
`bufEx`) leaves cell (1, 1) unchanged. -/
theorem c6_overdraw_clipping_witness :
    (drawRect bufEx rectFarOut 0 0 7).cells 1 1 = bufEx.cells 1 1 :=
  (c6_overdraw_clipping bufEx rectFarOut 0 0 7).2.1 (by unfold outsideGrid; decide) 1 1

/-- Claim C7 (counterexample): pressing scroll-right on the chain graph's
renderer (column offset 0, `max_depth` 1) leaves the column offset at 0;
the claim demands it become `0 + 1 = 1`.  The `run` loop matches only the
`'q'` key; every other key falls into the wildcard arm and does nothing. -/
theorem c7_scroll_key_noop :
    from_node 10 (Node.V1 chainGraph) = some (Except.ok chainRenderer)
    ∧ (run chainRenderer
        [Frame.event (Event.key ⟨KeyEventKind.press, KeyCode.right⟩)]).2.2.x_shift = 0
    ∧ ¬ ((run chainRenderer
        [Frame.event (Event.key ⟨KeyEventKind.press, KeyCode.right⟩)]).2.2.x_shift
          = chainRenderer.x_shift + 1) := by
  decide

/-- Claim C7 (amended): the scroll offsets never change at all — `from_node`
initializes both shifts to 0 and no input event modifies the renderer, so
the offsets stay 0 for the whole session; only the `'q'` press has any
effect (ending the loop). -/
theorem c7_shifts_never_change (fuel : Nat) (g : NodeGraphV1) (r : NodeDefRenderer)
    (frames : List Frame)
    (hfn : from_node fuel (Node.V1 g) = some (Except.ok r)) :
    r.x_shift = 0 ∧ r.y_shift = 0 ∧ (run r frames).2.2 = r := by
  obtain ⟨h1, h2⟩ := from_node_ok_inv hfn
  exact ⟨h1, h2, run_renderer_const r frames⟩

/-- Witness for C7's amended theorem at the chain graph. -/
theorem c7_shifts_never_change_witness :
    chainRenderer.x_shift = 0
    ∧ chainRenderer.y_shift = 0
    ∧ (run chainRenderer
        [Frame.event (Event.key ⟨KeyEventKind.press, KeyCode.left⟩)]).2.2 = chainRenderer :=
  c7_shifts_never_change 10 chainGraph chainRenderer
    [Frame.event (Event.key ⟨KeyEventKind.press, KeyCode.left⟩)] (by decide)

/-- Claim C8 (confirmed): on a graph value of any version other than V1,
`enter_node_view` fails with the "unsupported version" panic before
anything else happens — the action trace is empty: the terminal is never
taken over (`initTerm` absent) and no draw occurs, for any fuel and any
input script. -/
theorem c8_unsupported_version_fails_before_render (fuel : Nat) (frames : List Frame) :
    enter_node_view fuel Node.unsupportedVersion frames
      = ([], EnvOutcome.panic "unsupported version") := rfl

/-- Claim C9 (confirmed): provided `from_node` produced a renderer, a press
of `'q'` after any benign prefix of events ends the loop: the session
returns `Ok`, and the action trace is `initTerm`, one draw per loop
iteration, then `restoreTerm` — the terminal is restored before returning.
The second conjunct covers the I/O-failure path: a draw failure also ends
the session with the terminal restored and the error propagated. -/
theorem c9_quit_returns_ok_with_restore (fuel : Nat) (g : NodeGraphV1)
    (r : NodeDefRenderer) (pre rest rest2 : List Frame) (e : Nat)
    (hfn : from_node fuel (Node.V1 g) = some (Except.ok r))
    (hpre : ∀ f ∈ pre, benign f = true) :
    enter_node_view fuel (Node.V1 g)
        (pre ++ Frame.event (Event.key ⟨KeyEventKind.press, KeyCode.char 'q'⟩) :: rest)
      = (Action.initTerm :: (List.replicate pre.length Action.draw ++ [Action.draw])
          ++ [Action.restoreTerm], EnvOutcome.ret (Except.ok ()))
    ∧ enter_node_view fuel (Node.V1 g) (pre ++ Frame.drawErr e :: rest2)
      = (Action.initTerm :: List.replicate pre.length Action.draw
          ++ [Action.restoreTerm], EnvOutcome.ret (Except.error e)) := by
  have hq : run r (Frame.event (Event.key ⟨KeyEventKind.press, KeyCode.char 'q'⟩) :: rest)
      = ([Action.draw], some (Except.ok ()), r) := by
    simp [run, isQuitKey]
  have hd : run r (Frame.drawErr e :: rest2) = ([], some (Except.error e), r) := rfl
  constructor
  · simp only [enter_node_view, hfn]
    rw [run_skips_benign r pre _ hpre, hq]
  · simp only [enter_node_view, hfn]
    rw [run_skips_benign r pre _ hpre, hd]
    simp

/-- Witness for C9: quitting immediately on the empty graph. -/
theorem c9_quit_witness :
    enter_node_view 1 (Node.V1 emptyGraph)
        [Frame.event (Event.key ⟨KeyEventKind.press, KeyCode.char 'q'⟩)]
      = ([Action.initTerm, Action.draw, Action.restoreTerm],
          EnvOutcome.ret (Except.ok ())) := by
  have h := c9_quit_returns_ok_with_restore 1 emptyGraph emptyRenderer [] [] [] 0
    (by decide) (by simp)
  simpa using h.1

end NodeViewer
